import Mathlib

/-!
# Verification of the shrink-iw4x archive filter

A shallow embedding of `src/main.rs` of the `iw4x/shrink-iw4x` repository.
The program filters `.iwd` (ZIP) containers: it classifies entries by a
name-based removal predicate (`should_remove_file`), computes a removal set
(`analyze_archive`), rebuilds the container without the removed entries by
raw-copying each kept entry's compressed record (`create_filtered_archive`),
and reports per-container removed counts (`process_iwd_file`).  A separate
path deletes an entire `video` subdirectory (`process_video_directory`).

Strings are modelled as `List Char` where convenient; Rust `Path` component
semantics (slash splitting, normalization of empty and `.` segments) are
embedded faithfully for the `starts_with` / `extension` calls the predicate
makes.  Filesystem effects are modelled as an explicit action trace, and the
fallibility of each I/O call as boolean success flags in an environment.
-/

deriving instance DecidableEq for Except

namespace ShrinkIw4x

/-! ## Removal-policy constants (from `main.rs` lines 9-10) -/

def REMOVABLE_PATTERNS : List (List Char) :=
  ["images".data, "sound".data, "video".data]

def REMOVABLE_EXTENSIONS : List (List Char) :=
  ["iwi".data, "mp3".data]

/-! ## Rust `Path` semantics

`should_remove_file` builds `Path::new(name)` and uses `Path::starts_with`
and `Path::extension`.  On Unix, `Path` components split the byte string on
`'/'`; repeated separators and a trailing slash are normalized away, a `.`
segment is dropped except when it is the first component of a relative path,
a leading `/` becomes `RootDir`, and `..` is `ParentDir`. -/

/-- Split a character list on `'/'`, keeping empty segments
(the counterpart of splitting the OS string at every separator byte). -/
def splitSegs : List Char → List (List Char)
  | [] => [[]]
  | c :: rest =>
    if c = '/' then [] :: splitSegs rest
    else
      match splitSegs rest with
      | [] => [[c]]
      | s :: ss => (c :: s) :: ss

/-- One component of a Rust `Path`. -/
inductive PathComp where
  | rootDir : PathComp
  | curDir : PathComp
  | parentDir : PathComp
  | normal : List Char → PathComp
deriving DecidableEq, Repr

/-- Normalize a list of raw slash-separated segments into `Path` components:
empty segments vanish, `.` vanishes unless it is the leading component of a
relative path (`atStart`), `..` is `ParentDir`. -/
def normalizeSegs : Bool → List (List Char) → List PathComp
  | _, [] => []
  | atStart, seg :: rest =>
    if seg = [] then normalizeSegs atStart rest
    else if seg = ['.'] then
      if atStart then PathComp.curDir :: normalizeSegs false rest
      else normalizeSegs false rest
    else if seg = ['.', '.'] then PathComp.parentDir :: normalizeSegs false rest
    else PathComp.normal seg :: normalizeSegs false rest

/-- The components of `Path::new` on the given characters. -/
def pathComponents (cs : List Char) : List PathComp :=
  match splitSegs cs with
  | [] => []
  | first :: rest =>
    if first = [] then
      if rest = [] then []
      else PathComp.rootDir :: normalizeSegs false rest
    else normalizeSegs true (first :: rest)

/-- Rust `Path::starts_with`: the components of the base are a prefix of the
components of the path. -/
def pathStartsWith (cs pat : List Char) : Bool :=
  List.isPrefixOf (pathComponents pat) (pathComponents cs)

/-- Rust `Path::file_name`: the final component when it is a normal one. -/
def fileName (cs : List Char) : Option (List Char) :=
  match (pathComponents cs).getLast? with
  | some (PathComp.normal s) => some s
  | _ => none

/-- Rust extension of a file name: the part after the final `'.'`, none when
there is no `'.'` or the part before the final `'.'` is empty (a leading-dot
name such as `".iwi"` has no extension). -/
def extOf (f : List Char) : Option (List Char) :=
  if ('.' ∈ f : Bool) then
    let e := (f.reverse.takeWhile fun c => c ≠ '.').reverse
    if f.length - e.length - 1 = 0 then none else some e
  else none

/-- Rust `Path::extension` on the given characters. -/
def pathExtension (cs : List Char) : Option (List Char) :=
  (fileName cs).bind extOf

/-- Embeds `should_remove_file` (`main.rs` lines 122-131): remove when the path
starts with one of `REMOVABLE_PATTERNS`, or its extension is one of
`REMOVABLE_EXTENSIONS`. -/
def should_remove_file (name : String) : Bool :=
  (REMOVABLE_PATTERNS.any fun pat => pathStartsWith name.data pat)
  || (match pathExtension name.data with
      | some e => REMOVABLE_EXTENSIONS.any fun x => x = e
      | none => false)

/-! ## The archive model

A ZIP entry carries a name, an uncompressed size (`file.size()`), and an
opaque raw compressed record (bytes plus method/CRC/compressed-size
metadata) which `raw_copy_file` transfers verbatim.  A container is a list
of slots; a slot is the entry at its index together with two fallibility
flags: whether `archive.by_index(i)` succeeds (`readable`) and whether
`zip_writer.raw_copy_file(file)` succeeds (`copyable`). -/

/-- The raw compressed record of one entry: compressed bytes plus the format
metadata copied verbatim by `raw_copy_file`. -/
structure RawRecord where
  compressedBytes : List Nat
  method : Nat
  crc : Nat
  compressedSize : Nat
deriving DecidableEq, Repr

/-- One archive entry: its name, its uncompressed size (`file.size()`), and
its raw compressed record. -/
structure Entry where
  name : String
  size : Nat
  raw : RawRecord
deriving DecidableEq, Repr

/-- An entry slot in an open container: the entry and whether the two
fallible per-entry operations succeed on it. -/
structure Slot where
  entry : Entry
  readable : Bool
  copyable : Bool
deriving DecidableEq, Repr

/-- Success flags for the fallible filesystem calls of one container run:
`File::open`/`ZipArchive::new`, `File::create(temp)`, `ZipWriter::finish`,
`fs::remove_file(original)`, `fs::rename(temp, original)`. -/
structure Env where
  openOk : Bool
  createTempOk : Bool
  finishOk : Bool
  removeOk : Bool
  renameOk : Bool
deriving DecidableEq, Repr

/-- A filesystem effect performed while rebuilding one container. -/
inductive FsAction where
  | createTemp : FsAction
  | removeOriginal : FsAction
  | renameTempToOriginal : FsAction
  | removeTemp : FsAction
deriving DecidableEq, Repr

/-- The loop body of `analyze_archive` (`main.rs` lines 159-165), iterating
from index `i`: `by_index` failure aborts with the error; otherwise an entry
whose name satisfies `should_remove_file` contributes its index and its
uncompressed size. -/
def analyzeFrom : List Slot → Nat → Except String (List Nat × Nat)
  | [], _ => .ok ([], 0)
  | s :: rest, i =>
    if s.readable then
      match analyzeFrom rest (i + 1) with
      | .error e => .error e
      | .ok (rm, b) =>
        if should_remove_file s.entry.name then .ok (i :: rm, s.entry.size + b)
        else .ok (rm, b)
    else .error ("corrupt entry " ++ toString i)

/-- Embeds `analyze_archive` (`main.rs` lines 155-168). -/
def analyze_archive (slots : List Slot) : Except String (List Nat × Nat) :=
  analyzeFrom slots 0

/-- The rebuild loop of `create_filtered_archive` (`main.rs` lines 180-191),
from index `i`: indices in `rm` are skipped; `by_index` failure aborts with
the error; a failed `raw_copy_file` logs the entry's name and drops it;
otherwise the entry is appended to the new container. Returns the written
entries and the logged warnings. -/
def copyFrom : List Slot → List Nat → Nat → Except String (List Entry × List String)
  | [], _, _ => .ok ([], [])
  | s :: rest, rm, i =>
    if i ∈ rm then copyFrom rest rm (i + 1)
    else if s.readable then
      match copyFrom rest rm (i + 1) with
      | .error e => .error e
      | .ok (es, ws) =>
        if s.copyable then .ok (s.entry :: es, ws)
        else .ok (es, s.entry.name :: ws)
    else .error ("corrupt entry " ++ toString i)

/-- Embeds `create_filtered_archive` (`main.rs` lines 170-198): create the temp
file, raw-copy every non-removed entry, finish the writer, delete the
original, rename the temp over it.  Returns the filesystem actions performed
(in order) and either the written entries with warnings, or the first error.
The source never removes the temp file on an error path. -/
def create_filtered_archive (env : Env) (slots : List Slot) (rm : List Nat) :
    List FsAction × Except String (List Entry × List String) :=
  if env.createTempOk then
    match copyFrom slots rm 0 with
    | .error e => ([.createTemp], .error e)
    | .ok (es, ws) =>
      if env.finishOk then
        if env.removeOk then
          if env.renameOk then
            ([.createTemp, .removeOriginal, .renameTempToOriginal], .ok (es, ws))
          else ([.createTemp, .removeOriginal], .error "rename failed")
        else ([.createTemp], .error "remove_file failed")
      else ([.createTemp], .error "finish failed")
  else ([], .error "create temp failed")

/-- Embeds `process_iwd_file` (`main.rs` lines 133-153): open the archive, analyze
it, return `(0, 0)` untouched when nothing is to be removed, otherwise
rebuild and report `(files_to_remove.len(), bytes_to_remove)`. -/
def process_iwd_file (env : Env) (slots : List Slot) :
    List FsAction × Except String (Nat × Nat) :=
  if env.openOk then
    match analyze_archive slots with
    | .error e => ([], .error e)
    | .ok (rm, bytes) =>
      if rm = [] then ([], .ok (0, 0))
      else
        match create_filtered_archive env slots rm with
        | (acts, .error e) => (acts, .error e)
        | (acts, .ok _) => (acts, .ok (rm.length, bytes))
  else ([], .error "open failed")

/-! ## Stats and the video directory (`main.rs` lines 13-29, 61-92, 110-120) -/

/-- Embeds `ProcessingStats` (`main.rs` lines 13-16). -/
structure ProcessingStats where
  files_removed : Nat
  bytes_removed : Nat
deriving DecidableEq, Repr

/-- Embeds `ProcessingStats::add` (`main.rs` lines 26-29). -/
def ProcessingStats.add (s : ProcessingStats) (files : Nat) (bytes : Nat) :
    ProcessingStats :=
  ⟨s.files_removed + files, s.bytes_removed + bytes⟩

/-- Embeds `get_dir_size` (`main.rs` lines 110-120): the sum of the sizes of the
files under the directory. -/
def get_dir_size (fileSizes : List Nat) : Nat := fileSizes.sum

/-- Embeds `process_video_directory` (`main.rs` lines 79-92): `none` when the
`video` directory does not exist, otherwise its total file size (and the
directory is deleted).  The directory is modelled by the list of its files'
sizes. -/
def process_video_directory (videoDir : Option (List Nat)) : Option Nat :=
  videoDir.map get_dir_size

/-- The video step of `process_directory` (`main.rs` lines 70-72):
`stats.add(0, video_bytes)` when the video directory existed. -/
def process_directory_video_step (stats : ProcessingStats)
    (videoDir : Option (List Nat)) : ProcessingStats :=
  match process_video_directory videoDir with
  | some bytes => stats.add 0 bytes
  | none => stats

/-! ## Spec-side definitions

These follow the wording of the specification and of the claims, to be
compared with the embedded code. -/

/-- Spec-side: the indices (counting from `i`) of the entries whose name
satisfies the removal predicate — the spec's `RemovalSet`, in order. -/
def removalIndicesFrom : List Slot → Nat → List Nat
  | [], _ => []
  | s :: rest, i =>
    if should_remove_file s.entry.name then i :: removalIndicesFrom rest (i + 1)
    else removalIndicesFrom rest (i + 1)

/-- Spec-side: the summed uncompressed size of the removable entries. -/
def removedBytes (slots : List Slot) : Nat :=
  ((slots.filter fun s => should_remove_file s.entry.name).map
    fun s => s.entry.size).sum

/-- Spec-side: the original entries whose index is not in the removal set,
in their original relative order. -/
def keptEntries (slots : List Slot) (rm : List Nat) : List Entry :=
  ((List.enumFrom 0 slots).filter fun p => !(p.1 ∈ rm : Bool)).map
    fun p => p.2.entry

/-- Spec-side: the sum of the uncompressed sizes of the entries whose index
is in the removal set. -/
def removedBytesOf (slots : List Slot) (rm : List Nat) : Nat :=
  (((List.enumFrom 0 slots).filter fun p => (p.1 ∈ rm : Bool)).map
    fun p => p.2.entry.size).sum

/-- The first slash-separated segment of a name. -/
def firstSeg (name : String) : List Char :=
  match splitSegs name.data with
  | [] => []
  | s :: _ => s

/-- The last slash-separated segment of a name. -/
def lastSeg (name : String) : List Char :=
  ((splitSegs name.data).getLast?).getD []

/-- The substring after the final `'.'` of a segment, when the segment
contains a `'.'` at all. -/
def afterLastDot (seg : List Char) : Option (List Char) :=
  if ('.' ∈ seg : Bool) then
    some ((seg.reverse.takeWhile fun c => c ≠ '.').reverse)
  else none

/-- Spec-side removal predicate exactly as claim C2 words it: the first
slash-separated segment is a configured directory name, or the substring
after the final `'.'` in the final segment is a configured extension. -/
def claimedRemove (name : String) : Bool :=
  (REMOVABLE_PATTERNS.any fun pat => firstSeg name = pat)
  || (match afterLastDot (lastSeg name) with
      | some e => REMOVABLE_EXTENSIONS.any fun x => x = e
      | none => false)

/-- Spec-side removal predicate with the leading-dot amendment: the
extension clause additionally requires a character before the final `'.'`
of the final segment (a name such as `".iwi"` has no extension). -/
def claimedRemoveAmended (name : String) : Bool :=
  (REMOVABLE_PATTERNS.any fun pat => firstSeg name = pat)
  || (match afterLastDot (lastSeg name) with
      | some e =>
        decide (e.length + 1 < (lastSeg name).length)
          && REMOVABLE_EXTENSIONS.any fun x => x = e
      | none => false)

/-- A slash-separated segment is plain when it is non-empty and neither
`"."` nor `".."` — the shape every real ZIP entry name has. -/
def segPlain (seg : List Char) : Bool :=
  !(seg = [] : Bool) && !(seg = ['.'] : Bool) && !(seg = ['.', '.'] : Bool)

/-! ## Sample container

The spec's scenario (§8): `[a.cfg (keep), images/x.iwi (remove),
sound/y.mp3 (remove), b.dat (keep)]`, with compressed sizes deliberately
different from the uncompressed ones. -/

def sampleSlots : List Slot :=
  [⟨⟨"a.cfg", 10, ⟨[1, 2], 8, 101, 2⟩⟩, true, true⟩,
   ⟨⟨"images/x.iwi", 20, ⟨[3, 4, 5], 8, 102, 3⟩⟩, true, true⟩,
   ⟨⟨"sound/y.mp3", 30, ⟨[6], 0, 103, 1⟩⟩, true, true⟩,
   ⟨⟨"b.dat", 40, ⟨[7, 8], 8, 104, 2⟩⟩, true, true⟩]

/-- The all-success environment. -/
def allOk : Env := ⟨true, true, true, true, true⟩

/-! ## Helper lemmas about the analyze and copy loops -/

/-- A successful inspection means every slot was readable, the removal set
is exactly the indices of removable entries, and the byte count is the sum
of their uncompressed sizes. -/
theorem analyzeFrom_ok_elim : ∀ (slots : List Slot) (i : Nat)
    (p : List Nat × Nat), analyzeFrom slots i = .ok p →
    (∀ s ∈ slots, s.readable = true) ∧
      p.1 = removalIndicesFrom slots i ∧ p.2 = removedBytes slots := by
  intro slots
  induction slots with
  | nil =>
    intro i p h
    simp only [analyzeFrom, Except.ok.injEq] at h
    subst h
    simp [removalIndicesFrom, removedBytes]
  | cons s rest ih =>
    intro i p h
    simp only [analyzeFrom] at h
    by_cases hr : s.readable
    · rw [if_pos hr] at h
      cases hrec : analyzeFrom rest (i + 1) with
      | error e => rw [hrec] at h; cases h
      | ok q =>
        obtain ⟨q1, q2⟩ := q
        rw [hrec] at h
        dsimp only at h
        obtain ⟨hall, hq1, hq2⟩ := ih (i + 1) (q1, q2) hrec
        simp only at hq1 hq2
        by_cases hs : should_remove_file s.entry.name
        · rw [if_pos hs] at h
          cases h
          refine ⟨?_, ?_, ?_⟩
          · intro x hx
            rcases List.mem_cons.mp hx with hx | hx
            · rw [hx]; exact hr
            · exact hall x hx
          · simp [removalIndicesFrom, hs, hq1]
          · simp [removedBytes, hs, hq2]
        · rw [if_neg hs] at h
          cases h
          refine ⟨?_, ?_, ?_⟩
          · intro x hx
            rcases List.mem_cons.mp hx with hx | hx
            · rw [hx]; exact hr
            · exact hall x hx
          · simp [removalIndicesFrom, hs, hq1]
          · simp [removedBytes, hs] at hq2 ⊢
            exact hq2
    · rw [if_neg hr] at h
      cases h

/-- Every index in the removal set computed from position `i` is at
least `i`. -/
theorem removalIndicesFrom_ge : ∀ (slots : List Slot) (i j : Nat),
    j ∈ removalIndicesFrom slots i → i ≤ j := by
  intro slots
  induction slots with
  | nil => intro i j h; simp [removalIndicesFrom] at h
  | cons s rest ih =>
    intro i j h
    simp only [removalIndicesFrom] at h
    by_cases hs : should_remove_file s.entry.name
    · rw [if_pos hs] at h
      rcases List.mem_cons.mp h with h | h
      · omega
      · have := ih (i + 1) j h; omega
    · rw [if_neg hs] at h
      have := ih (i + 1) j h; omega

/-- The first index of every pair produced by `enumFrom i` is at
least `i`. -/
theorem enumFrom_fst_ge : ∀ (slots : List Slot) (i : Nat)
    (p : Nat × Slot), p ∈ List.enumFrom i slots → i ≤ p.1 := by
  intro slots
  induction slots with
  | nil => intro i p h; simp [List.enumFrom] at h
  | cons s rest ih =>
    intro i p h
    simp only [List.enumFrom] at h
    rcases List.mem_cons.mp h with h | h
    · rw [h]
    · have := ih (i + 1) p h; omega

/-- An enumerated slot's index lies in the removal set exactly when its
entry's name satisfies the removal predicate. -/
theorem mem_removalIndicesFrom_iff : ∀ (slots : List Slot) (i : Nat)
    (p : Nat × Slot), p ∈ List.enumFrom i slots →
    (p.1 ∈ removalIndicesFrom slots i ↔
      should_remove_file p.2.entry.name = true) := by
  intro slots
  induction slots with
  | nil => intro i p h; simp [List.enumFrom] at h
  | cons s rest ih =>
    intro i p h
    simp only [List.enumFrom] at h
    rcases List.mem_cons.mp h with h | h
    · subst h
      simp only [removalIndicesFrom]
      by_cases hs : should_remove_file s.entry.name
      · simp [hs]
      · rw [if_neg hs]
        simp only [hs]
        constructor
        · intro hmem
          have := removalIndicesFrom_ge rest (i + 1) i hmem
          omega
        · intro hfalse; cases hfalse
    · have hge : i + 1 ≤ p.1 := enumFrom_fst_ge rest (i + 1) p h
      simp only [removalIndicesFrom]
      by_cases hs : should_remove_file s.entry.name
      · rw [if_pos hs]
        rw [List.mem_cons]
        have hne : ¬(p.1 = i) := by omega
        simp only [hne, false_or]
        exact ih (i + 1) p h
      · rw [if_neg hs]
        exact ih (i + 1) p h

/-- When every slot is readable, inspection succeeds and returns exactly
the removable indices and their summed uncompressed sizes. -/
theorem analyzeFrom_ok_intro : ∀ (slots : List Slot) (i : Nat),
    (∀ s ∈ slots, s.readable = true) →
    analyzeFrom slots i = .ok (removalIndicesFrom slots i, removedBytes slots) := by
  intro slots
  induction slots with
  | nil => intro i _; simp [analyzeFrom, removalIndicesFrom, removedBytes]
  | cons s rest ih =>
    intro i hall
    have hr : s.readable = true := hall s (List.mem_cons_self s rest)
    have hrest : ∀ x ∈ rest, x.readable = true := fun x hx =>
      hall x (List.mem_cons_of_mem s hx)
    simp only [analyzeFrom, hr, if_pos, ih i.succ hrest]
    by_cases hs : should_remove_file s.entry.name
    · simp [hs, removalIndicesFrom, removedBytes]
    · simp [hs, removalIndicesFrom, removedBytes]

/-- When every retained slot (from index `i` on) is readable, the rebuild
loop succeeds: it writes exactly the retained copyable entries in order and
logs exactly the names of the retained uncopyable entries. -/
theorem copyFrom_ok : ∀ (slots : List Slot) (rm : List Nat) (i : Nat),
    (∀ p ∈ List.enumFrom i slots, p.1 ∉ rm → p.2.readable = true) →
    copyFrom slots rm i = .ok
      (((List.enumFrom i slots).filter fun p =>
          !(p.1 ∈ rm : Bool) && p.2.copyable).map fun p => p.2.entry,
       ((List.enumFrom i slots).filter fun p =>
          !(p.1 ∈ rm : Bool) && !p.2.copyable).map fun p => p.2.entry.name) := by
  intro slots
  induction slots with
  | nil => intro rm i _; simp [copyFrom, List.enumFrom]
  | cons s rest ih =>
    intro rm i hall
    have hhead : (i, s) ∈ List.enumFrom i (s :: rest) := by
      simp [List.enumFrom]
    have htail : ∀ p ∈ List.enumFrom (i + 1) rest, p.1 ∉ rm →
        p.2.readable = true := by
      intro p hp hmem
      refine hall p ?_ hmem
      simp [List.enumFrom, hp]
    by_cases hm : i ∈ rm
    · simp only [copyFrom, if_pos hm, ih rm (i + 1) htail, List.enumFrom,
        List.filter_cons]
      simp [hm]
    · have hr : s.readable = true := hall (i, s) hhead hm
      simp only [copyFrom, if_neg hm, hr, if_pos, ih rm (i + 1) htail,
        List.enumFrom, List.filter_cons]
      by_cases hc : s.copyable
      · simp [hm, hc]
      · simp only [hm, hc]
        simp

/-- Spec-side: the entries a best-effort rebuild writes — retained
(index not in the removal set) and whose raw copy succeeds, in order. -/
def writtenEntries (slots : List Slot) (rm : List Nat) : List Entry :=
  ((List.enumFrom 0 slots).filter fun p =>
    !(p.1 ∈ rm : Bool) && p.2.copyable).map fun p => p.2.entry

/-- Spec-side: the names of the retained entries whose raw copy fails and
which the rebuild therefore drops with a warning, in order. -/
def droppedNames (slots : List Slot) (rm : List Nat) : List String :=
  ((List.enumFrom 0 slots).filter fun p =>
    !(p.1 ∈ rm : Bool) && !p.2.copyable).map fun p => p.2.entry.name

/-- Specialization of `copyFrom_ok` to index `0`, phrased with the spec-side names. -/
theorem copyFrom_zero_ok (slots : List Slot) (rm : List Nat)
    (h : ∀ p ∈ List.enumFrom 0 slots, p.1 ∉ rm → p.2.readable = true) :
    copyFrom slots rm 0 = .ok (writtenEntries slots rm, droppedNames slots rm) :=
  copyFrom_ok slots rm 0 h

/-- The second components of `enumFrom i l` are members of `l`. -/
theorem enumFrom_snd_mem : ∀ (l : List Slot) (i : Nat) (p : Nat × Slot),
    p ∈ List.enumFrom i l → p.2 ∈ l := by
  intro l
  induction l with
  | nil => intro i p h; simp [List.enumFrom] at h
  | cons s rest ih =>
    intro i p h
    simp only [List.enumFrom] at h
    rcases List.mem_cons.mp h with h | h
    · rw [h]; exact List.mem_cons_self s rest
    · exact List.mem_cons_of_mem s (ih (i + 1) p h)

/-- Filtering `enumFrom` by a predicate on the slot and projecting away the
index is filtering the slots themselves. -/
theorem filter_enumFrom_snd (q : Slot → Bool) : ∀ (l : List Slot) (i : Nat),
    ((List.enumFrom i l).filter fun p => q p.2).map (fun p => p.2) =
      l.filter q := by
  intro l
  induction l with
  | nil => intro i; simp [List.enumFrom]
  | cons s rest ih =>
    intro i
    simp only [List.enumFrom, List.filter_cons]
    by_cases hq : q s
    · simp [hq, ih (i + 1)]
    · simp [hq, ih (i + 1)]

/-- The bytes attributed to the inspector's removal set are the summed
uncompressed sizes of the removable entries. -/
theorem removedBytesOf_removalIndices (slots : List Slot) :
    removedBytesOf slots (removalIndicesFrom slots 0) = removedBytes slots := by
  unfold removedBytesOf removedBytes
  have hcongr : (List.enumFrom 0 slots).filter
      (fun p => (p.1 ∈ removalIndicesFrom slots 0 : Bool)) =
      (List.enumFrom 0 slots).filter
        (fun p => should_remove_file p.2.entry.name) := by
    apply List.filter_congr
    intro p hp
    have := mem_removalIndicesFrom_iff slots 0 p hp
    by_cases hs : should_remove_file p.2.entry.name
    · simp [hs, this]
    · simp [hs, this]
  rw [hcongr]
  have hmap : ((List.enumFrom 0 slots).filter
      (fun p => should_remove_file p.2.entry.name)).map
        (fun p => p.2.entry.size) =
      ((List.enumFrom 0 slots).filter
        (fun p => should_remove_file p.2.entry.name)).map
          ((fun s => s.entry.size) ∘ fun p => p.2) := by
    apply List.map_congr_left
    intro p _
    rfl
  rw [hmap, ← List.map_map,
    filter_enumFrom_snd (fun s => should_remove_file s.entry.name)]

/-- A rebuild whose result is a success performed a successful copy loop
with the same payload. -/
theorem create_ok_elim (env : Env) (slots : List Slot) (rm : List Nat)
    (r : List Entry × List String)
    (h : (create_filtered_archive env slots rm).2 = .ok r) :
    copyFrom slots rm 0 = .ok r := by
  by_cases hc : env.createTempOk
  · simp only [create_filtered_archive, hc, if_pos] at h
    cases hcopy : copyFrom slots rm 0 with
    | error e => rw [hcopy] at h; simp at h
    | ok q =>
      obtain ⟨es, ws⟩ := q
      rw [hcopy] at h
      dsimp only at h
      by_cases hf : env.finishOk
      · by_cases hrm : env.removeOk
        · by_cases hrn : env.renameOk
          · simp only [hf, hrm, hrn, if_pos] at h
            simp only [Except.ok.injEq] at h
            rw [h]
          · simp [hf, hrm, hrn] at h
        · simp [hf, hrm] at h
      · simp [hf] at h
  · simp [create_filtered_archive, hc] at h

/-- No removable entry means an empty removal set. -/
theorem removalIndicesFrom_eq_nil : ∀ (slots : List Slot),
    (∀ s ∈ slots, should_remove_file s.entry.name = false) →
    ∀ i, removalIndicesFrom slots i = [] := by
  intro slots
  induction slots with
  | nil => intro _ i; simp [removalIndicesFrom]
  | cons s rest ih =>
    intro h i
    have hs : should_remove_file s.entry.name = false :=
      h s (List.mem_cons_self s rest)
    simp only [removalIndicesFrom, hs]
    exact ih (fun x hx => h x (List.mem_cons_of_mem s hx)) (i + 1)

/-- No removable entry means zero removable bytes. -/
theorem removedBytes_eq_zero (slots : List Slot)
    (h : ∀ s ∈ slots, should_remove_file s.entry.name = false) :
    removedBytes slots = 0 := by
  unfold removedBytes
  have : slots.filter (fun s => should_remove_file s.entry.name) = [] := by
    rw [List.filter_eq_nil_iff]
    intro s hs
    simp [h s hs]
  simp [this]

/-- A container with no removable entry. -/
def cleanSlots : List Slot :=
  [⟨⟨"a.cfg", 10, ⟨[1, 2], 8, 101, 2⟩⟩, true, true⟩,
   ⟨⟨"b.dat", 40, ⟨[7, 8], 8, 104, 2⟩⟩, true, true⟩]

/-- A container whose first entry record is unreadable. -/
def corruptSlots : List Slot :=
  [⟨⟨"a.cfg", 10, ⟨[1, 2], 8, 101, 2⟩⟩, false, true⟩,
   ⟨⟨"images/x.iwi", 20, ⟨[3, 4, 5], 8, 102, 3⟩⟩, true, true⟩]

/-- A container where the retained entry `a.cfg` cannot be raw-copied. -/
def partialSlots : List Slot :=
  [⟨⟨"a.cfg", 10, ⟨[1, 2], 8, 101, 2⟩⟩, true, false⟩,
   ⟨⟨"images/x.iwi", 20, ⟨[3, 4, 5], 8, 102, 3⟩⟩, true, true⟩,
   ⟨⟨"b.dat", 40, ⟨[7, 8], 8, 104, 2⟩⟩, true, true⟩]

/-! ## The claims -/

/-- C1: for every container and removal set computed by inspection, if the
raw copy of every retained entry succeeds (and the finalize/replace calls
succeed), the rebuilt container holds exactly the original entries whose
indices are not in the removal set, in original relative order, with no
warnings; each kept entry — its raw compressed record included — is the
input entry itself, byte for byte. -/
theorem claim1_rebuild_keeps_exactly_retained (env : Env) (slots : List Slot)
    (rm : List Nat) (bytes : Nat)
    (hana : analyze_archive slots = .ok (rm, bytes))
    (hcopy : ∀ p ∈ List.enumFrom 0 slots, p.1 ∉ rm → p.2.copyable = true)
    (hc : env.createTempOk = true) (hf : env.finishOk = true)
    (hrm : env.removeOk = true) (hrn : env.renameOk = true) :
    create_filtered_archive env slots rm =
      ([.createTemp, .removeOriginal, .renameTempToOriginal],
        .ok (keptEntries slots rm, [])) := by
  have hread := (analyzeFrom_ok_elim slots 0 (rm, bytes) hana).1
  have hloop := copyFrom_zero_ok slots rm
    (fun p hp _ => hread p.2 (enumFrom_snd_mem slots 0 p hp))
  have hw : writtenEntries slots rm = keptEntries slots rm := by
    unfold writtenEntries keptEntries
    congr 1
    apply List.filter_congr
    intro p hp
    by_cases hm : p.1 ∈ rm
    · simp [hm]
    · simp [hm, hcopy p hp hm]
  have hd : droppedNames slots rm = [] := by
    unfold droppedNames
    have hnil : (List.enumFrom 0 slots).filter
        (fun p => !(p.1 ∈ rm : Bool) && !p.2.copyable) = [] := by
      rw [List.filter_eq_nil_iff]
      intro p hp
      by_cases hm : p.1 ∈ rm
      · simp [hm]
      · simp [hm, hcopy p hp hm]
    simp [hnil]
  rw [hw, hd] at hloop
  simp [create_filtered_archive, hc, hloop, hf, hrm, hrn]

/-- C1 witness: the spec's scenario container. -/
theorem claim1_witness :
    (analyze_archive sampleSlots = .ok ([1, 2], 50) ∧
      (∀ p ∈ List.enumFrom 0 sampleSlots, p.1 ∉ [1, 2] → p.2.copyable = true)) ∧
    create_filtered_archive allOk sampleSlots [1, 2] =
      ([.createTemp, .removeOriginal, .renameTempToOriginal],
        .ok (keptEntries sampleSlots [1, 2], [])) :=
  ⟨⟨by decide, by decide⟩,
    claim1_rebuild_keeps_exactly_retained allOk sampleSlots [1, 2] 50
      (by decide) (by decide) rfl rfl rfl rfl⟩

/-- C3: when inspection finds nothing to remove, `process_iwd_file` reports
`(0, 0)` and performs no filesystem action at all: no temporary file, the
original container untouched. -/
theorem claim3_empty_removal_set_no_writes (env : Env) (slots : List Slot)
    (bytes : Nat) (hana : analyze_archive slots = .ok ([], bytes))
    (ho : env.openOk = true) :
    process_iwd_file env slots = ([], .ok (0, 0)) := by
  simp [process_iwd_file, ho, hana]

/-- C3 witness: a container with only kept entries. -/
theorem claim3_witness :
    (analyze_archive cleanSlots = .ok ([], 0) ∧ allOk.openOk = true) ∧
    process_iwd_file allOk cleanSlots = ([], .ok (0, 0)) :=
  ⟨⟨by decide, rfl⟩,
    claim3_empty_removal_set_no_writes allOk cleanSlots 0 (by decide) rfl⟩

/-- C4: when reading an entry record fails during inspection, processing of
the container aborts with that error before any filesystem action; the
original file is unmodified. -/
theorem claim4_inspection_failure_no_writes (env : Env) (slots : List Slot)
    (e : String) (hana : analyze_archive slots = .error e)
    (ho : env.openOk = true) :
    process_iwd_file env slots = ([], .error e) := by
  simp [process_iwd_file, ho, hana]

/-- C4 witness: a container whose entry 0 is unreadable. -/
theorem claim4_witness :
    (analyze_archive corruptSlots = .error "corrupt entry 0" ∧
      allOk.openOk = true) ∧
    process_iwd_file allOk corruptSlots = ([], .error "corrupt entry 0") :=
  ⟨⟨by decide, rfl⟩,
    claim4_inspection_failure_no_writes allOk corruptSlots "corrupt entry 0"
      (by decide) rfl⟩

/-- C5: under a removal set computed by a successful inspection, the rebuild
always succeeds best-effort: it writes exactly the retained entries whose
raw copy succeeds, and each retained entry whose raw copy fails is dropped
from the output with its name logged as a warning, without aborting. -/
theorem claim5_copy_failure_drops_entry_rebuild_succeeds (env : Env)
    (slots : List Slot) (rm : List Nat) (bytes : Nat)
    (hana : analyze_archive slots = .ok (rm, bytes))
    (hc : env.createTempOk = true) (hf : env.finishOk = true)
    (hrm : env.removeOk = true) (hrn : env.renameOk = true) :
    create_filtered_archive env slots rm =
      ([.createTemp, .removeOriginal, .renameTempToOriginal],
        .ok (writtenEntries slots rm, droppedNames slots rm)) := by
  have hread := (analyzeFrom_ok_elim slots 0 (rm, bytes) hana).1
  have hloop := copyFrom_zero_ok slots rm
    (fun p hp _ => hread p.2 (enumFrom_snd_mem slots 0 p hp))
  simp [create_filtered_archive, hc, hloop, hf, hrm, hrn]

/-- C5 witness: the retained entry `a.cfg` cannot be copied; it is dropped
and logged, the removable entry is removed, and the rebuild succeeds. -/
theorem claim5_witness :
    (analyze_archive partialSlots = .ok ([1], 20) ∧
      writtenEntries partialSlots [1] =
        [⟨"b.dat", 40, ⟨[7, 8], 8, 104, 2⟩⟩] ∧
      droppedNames partialSlots [1] = ["a.cfg"]) ∧
    create_filtered_archive allOk partialSlots [1] =
      ([.createTemp, .removeOriginal, .renameTempToOriginal],
        .ok (writtenEntries partialSlots [1], droppedNames partialSlots [1])) :=
  ⟨⟨by decide, by decide, by decide⟩,
    claim5_copy_failure_drops_entry_rebuild_succeeds allOk partialSlots [1] 20
      (by decide) rfl rfl rfl rfl⟩

/-- C6: the code contradicts the spec's required temp-file cleanup.  At a
container with removable entries, when `ZipWriter::finish` fails after the
temporary sibling file has been created, `create_filtered_archive` surfaces
the error with the temporary file still on disk: its action trace is exactly
the creation of the temp file and contains no temp-file removal. -/
theorem claim6_temp_file_left_on_finalize_error :
    create_filtered_archive ⟨true, true, false, true, true⟩ sampleSlots [1, 2]
        = ([.createTemp], .error "finish failed") ∧
      FsAction.removeTemp ∉
        (create_filtered_archive ⟨true, true, false, true, true⟩
          sampleSlots [1, 2]).1 := by
  constructor
  · rfl
  · intro hmem
    rw [show (create_filtered_archive ⟨true, true, false, true, true⟩
        sampleSlots [1, 2]).1 = [FsAction.createTemp] from rfl] at hmem
    simp at hmem

/-- C7: a successful rebuild with a non-empty removal set reports exactly
the removal set's cardinality and the sum of the removed entries'
uncompressed sizes, independently of which retained entries the best-effort
copy loop dropped. -/
theorem claim7_reported_counts_from_removal_set (env : Env)
    (slots : List Slot) (rm : List Nat) (bytes : Nat)
    (hana : analyze_archive slots = .ok (rm, bytes)) (hne : rm ≠ [])
    (ho : env.openOk = true) (hc : env.createTempOk = true)
    (hf : env.finishOk = true) (hrm : env.removeOk = true)
    (hrn : env.renameOk = true) :
    process_iwd_file env slots =
      ([.createTemp, .removeOriginal, .renameTempToOriginal],
        .ok (rm.length, removedBytesOf slots rm)) := by
  obtain ⟨hread, hrmchar, hbchar⟩ := analyzeFrom_ok_elim slots 0 (rm, bytes) hana
  simp only at hrmchar hbchar
  have hloop := copyFrom_zero_ok slots rm
    (fun p hp _ => hread p.2 (enumFrom_snd_mem slots 0 p hp))
  have hbytes : bytes = removedBytesOf slots rm := by
    rw [hbchar, hrmchar, removedBytesOf_removalIndices]
  simp [process_iwd_file, ho, hana, hne, create_filtered_archive, hc, hloop,
    hf, hrm, hrn, hbytes]

/-- C7 witness: the removal set is `[1]` with 20 uncompressed bytes, and the
reported pair is `(1, 20)` even though the retained `a.cfg` was dropped by a
failed raw copy. -/
theorem claim7_witness :
    (analyze_archive partialSlots = .ok ([1], 20) ∧ ([1] : List Nat) ≠ [] ∧
      removedBytesOf partialSlots [1] = 20) ∧
    process_iwd_file allOk partialSlots =
      ([.createTemp, .removeOriginal, .renameTempToOriginal],
        .ok (([1] : List Nat).length, removedBytesOf partialSlots [1])) :=
  ⟨⟨by decide, by decide, by decide⟩,
    claim7_reported_counts_from_removal_set allOk partialSlots [1] 20
      (by decide) (by decide) rfl rfl rfl rfl rfl⟩

/-- C8: idempotence. After a successful rebuild, every entry of the output
container fails the removal predicate, so a second run computes an empty
removal set, reports `(0, 0)`, performs no filesystem action, and leaves the
file unchanged. -/
theorem claim8_second_run_is_noop (env env' : Env) (slots : List Slot)
    (rm : List Nat) (bytes : Nat) (es : List Entry) (ws : List String)
    (hana : analyze_archive slots = .ok (rm, bytes))
    (hreb : (create_filtered_archive env slots rm).2 = .ok (es, ws))
    (ho : env'.openOk = true) :
    process_iwd_file env' (es.map fun e => ⟨e, true, true⟩) =
      ([], .ok (0, 0)) := by
  obtain ⟨hread, hrmchar, _⟩ := analyzeFrom_ok_elim slots 0 (rm, bytes) hana
  simp only at hrmchar
  have hloop := copyFrom_zero_ok slots rm
    (fun p hp _ => hread p.2 (enumFrom_snd_mem slots 0 p hp))
  have hes : es = writtenEntries slots rm := by
    have h2 := create_ok_elim env slots rm (es, ws) hreb
    rw [hloop] at h2
    simp only [Except.ok.injEq, Prod.mk.injEq] at h2
    exact h2.1.symm
  have hnone : ∀ e ∈ es, should_remove_file e.name = false := by
    intro e he
    rw [hes] at he
    unfold writtenEntries at he
    obtain ⟨p, hp, hpe⟩ := List.mem_map.mp he
    obtain ⟨hpmem, hpred⟩ := List.mem_filter.mp hp
    simp only [Bool.and_eq_true, Bool.not_eq_true', decide_eq_false_iff_not]
      at hpred
    have hnm : p.1 ∉ removalIndicesFrom slots 0 := by
      rw [← hrmchar]; exact hpred.1
    have hiff := mem_removalIndicesFrom_iff slots 0 p hpmem
    rw [← hpe]
    by_cases hs : should_remove_file p.2.entry.name
    · exact absurd (hiff.mpr hs) hnm
    · simpa using hs
  have hall : ∀ s ∈ es.map (fun e => (⟨e, true, true⟩ : Slot)),
      s.readable = true := by
    intro s hs
    obtain ⟨e, _, rfl⟩ := List.mem_map.mp hs
    rfl
  have hnorem : ∀ s ∈ es.map (fun e => (⟨e, true, true⟩ : Slot)),
      should_remove_file s.entry.name = false := by
    intro s hs
    obtain ⟨e, he, rfl⟩ := List.mem_map.mp hs
    exact hnone e he
  have hana' : analyze_archive (es.map fun e => ⟨e, true, true⟩) =
      .ok ([], 0) := by
    unfold analyze_archive
    rw [analyzeFrom_ok_intro _ 0 hall,
      removalIndicesFrom_eq_nil _ hnorem 0, removedBytes_eq_zero _ hnorem]
  simp [process_iwd_file, ho, hana']

/-- C8 witness: rebuilding the scenario container and filtering the result
again removes nothing and touches nothing. -/
theorem claim8_witness :
    (analyze_archive sampleSlots = .ok ([1, 2], 50) ∧
      (create_filtered_archive allOk sampleSlots [1, 2]).2 =
        .ok ([⟨"a.cfg", 10, ⟨[1, 2], 8, 101, 2⟩⟩,
              ⟨"b.dat", 40, ⟨[7, 8], 8, 104, 2⟩⟩], [])) ∧
    process_iwd_file allOk
      (([⟨"a.cfg", 10, ⟨[1, 2], 8, 101, 2⟩⟩,
         ⟨"b.dat", 40, ⟨[7, 8], 8, 104, 2⟩⟩] : List Entry).map
        fun e => ⟨e, true, true⟩) = ([], .ok (0, 0)) :=
  ⟨⟨by decide, by decide⟩,
    claim8_second_run_is_noop allOk allOk sampleSlots [1, 2] 50
      [⟨"a.cfg", 10, ⟨[1, 2], 8, 101, 2⟩⟩,
       ⟨"b.dat", 40, ⟨[7, 8], 8, 104, 2⟩⟩] []
      (by decide) (by decide) rfl⟩

/-! ## Path lemmas for claim C2 -/

/-- Splitting on `'/'` always yields at least one segment. -/
theorem splitSegs_ne_nil : ∀ cs : List Char, splitSegs cs ≠ [] := by
  intro cs
  cases cs with
  | nil => simp [splitSegs]
  | cons c rest =>
    simp only [splitSegs]
    by_cases hc : c = '/'
    · simp [hc]
    · rw [if_neg hc]
      cases splitSegs rest with
      | nil => simp
      | cons s ss => simp

/-- On plain segments, normalization only wraps each segment as a normal
component. -/
theorem normalizeSegs_plain : ∀ (segs : List (List Char)),
    (∀ seg ∈ segs, segPlain seg = true) →
    ∀ b, normalizeSegs b segs = segs.map PathComp.normal := by
  intro segs
  induction segs with
  | nil => intro _ b; simp [normalizeSegs]
  | cons seg rest ih =>
    intro h b
    have hp : segPlain seg = true := h seg (List.mem_cons_self seg rest)
    simp only [segPlain, Bool.and_eq_true, Bool.not_eq_true',
      decide_eq_false_iff_not] at hp
    obtain ⟨⟨h1, h2⟩, h3⟩ := hp
    simp only [normalizeSegs, if_neg h1, if_neg h2, if_neg h3, List.map_cons]
    rw [ih (fun x hx => h x (List.mem_cons_of_mem seg hx)) false]

/-- A name all of whose slash-separated segments are plain parses into one
normal component per segment. -/
theorem pathComponents_plain (cs : List Char)
    (h : ∀ seg ∈ splitSegs cs, segPlain seg = true) :
    pathComponents cs = (splitSegs cs).map PathComp.normal := by
  cases hs : splitSegs cs with
  | nil => exact absurd hs (splitSegs_ne_nil cs)
  | cons first rest =>
    have hp : segPlain first = true := by
      apply h
      rw [hs]
      exact List.mem_cons_self first rest
    have hne : ¬(first = []) := by
      simp only [segPlain, Bool.and_eq_true, Bool.not_eq_true',
        decide_eq_false_iff_not] at hp
      exact hp.1.1
    unfold pathComponents
    rw [hs]
    dsimp only
    rw [if_neg hne]
    apply normalizeSegs_plain
    intro seg hseg
    apply h
    rw [hs]
    exact hseg

/-- Taking while not-a-dot from a list containing a dot stops strictly
early. -/
theorem takeWhile_ne_dot_length_lt : ∀ l : List Char, '.' ∈ l →
    (l.takeWhile fun c => c ≠ '.').length < l.length := by
  intro l
  induction l with
  | nil => intro h; cases h
  | cons c rest ih =>
    intro h
    by_cases hc : c = '.'
    · have h1 : (List.takeWhile (fun c => c ≠ '.') (c :: rest)) = [] := by
        subst hc
        simp [List.takeWhile]
      rw [h1]
      simp
    · have h1 : (List.takeWhile (fun c => c ≠ '.') (c :: rest)) =
          c :: List.takeWhile (fun c => c ≠ '.') rest := by
        simp [List.takeWhile, hc]
      have hr : '.' ∈ rest := by
        rcases List.mem_cons.mp h with h2 | h2
        · exact absurd h2.symm hc
        · exact h2
      rw [h1]
      simp only [List.length_cons]
      exact Nat.succ_lt_succ (ih hr)

/-- The code's extension rule is the claim's after-the-final-dot rule
restricted to names with a character before the final dot. -/
theorem extOf_eq_afterLastDot (f : List Char) :
    extOf f = match afterLastDot f with
      | some e => if e.length + 1 < f.length then some e else none
      | none => none := by
  by_cases hd : ('.' ∈ f)
  · have hd' : decide ('.' ∈ f) = true := by simpa using hd
    have hlt : ((f.reverse.takeWhile fun c => c ≠ '.').reverse).length <
        f.length := by
      rw [List.length_reverse]
      have h2 := takeWhile_ne_dot_length_lt f.reverse (by simpa using hd)
      simpa using h2
    have hunf1 : extOf f =
        if f.length - ((f.reverse.takeWhile fun c => c ≠ '.').reverse).length
            - 1 = 0 then none
        else some ((f.reverse.takeWhile fun c => c ≠ '.').reverse) := by
      unfold extOf
      rw [if_pos hd']
    have hunf2 : afterLastDot f =
        some ((f.reverse.takeWhile fun c => c ≠ '.').reverse) := by
      unfold afterLastDot
      rw [if_pos hd']
    rw [hunf1, hunf2]
    by_cases hcnd :
        ((f.reverse.takeWhile fun c => c ≠ '.').reverse).length + 1 < f.length
    · rw [if_neg (by omega)]
      dsimp only
      rw [if_pos hcnd]
    · rw [if_pos (by omega)]
      dsimp only
      rw [if_neg hcnd]
  · have hd' : decide ('.' ∈ f) = false := by simpa using hd
    unfold extOf afterLastDot
    rw [if_neg (by simp [hd']), if_neg (by simp [hd'])]

/-- Against a single-normal-component base, `starts_with` is equality of the
first segment with the base. -/
theorem pathStartsWith_plain (cs pat : List Char) (first : List Char)
    (rest : List (List Char)) (hsplit : splitSegs cs = first :: rest)
    (hcomps : pathComponents cs = (splitSegs cs).map PathComp.normal)
    (hpat : pathComponents pat = [PathComp.normal pat]) :
    pathStartsWith cs pat = decide (first = pat) := by
  unfold pathStartsWith
  rw [hpat, hcomps, hsplit]
  simp only [List.map_cons, List.isPrefixOf, Bool.and_true]
  by_cases he : first = pat
  · subst he
    simp
  · have hne : PathComp.normal pat ≠ PathComp.normal first := by
      intro hh
      injection hh with hh
      exact he hh.symm
    simp [he, hne]

/-- C2 counterexample: the claim's iff fails at the name `".iwi"` — its
final (only) segment's substring after the final `'.'` is the configured
extension `iwi`, yet the code keeps it, because Rust's `Path::extension`
gives a leading-dot file name no extension. -/
theorem claim2_counterexample_leading_dot_name :
    should_remove_file ".iwi" = false ∧ claimedRemove ".iwi" = true := by
  refine ⟨?_, ?_⟩ <;> decide

/-- C2 (amended): for every entry name whose slash-separated segments are
all plain (non-empty, not `.`, not `..`), `should_remove_file` returns true
exactly when the first segment is one of the configured directory names, or
the final segment's substring after its final `'.'` is one of the configured
extensions and some character precedes that final `'.'`. -/
theorem claim2_predicate_matches_amended_spec (name : String)
    (h : ∀ seg ∈ splitSegs name.data, segPlain seg = true) :
    should_remove_file name = claimedRemoveAmended name := by
  obtain ⟨first, rest, hsplit⟩ : ∃ f r, splitSegs name.data = f :: r := by
    cases hs : splitSegs name.data with
    | nil => exact absurd hs (splitSegs_ne_nil name.data)
    | cons f r => exact ⟨f, r, rfl⟩
  have hcomps := pathComponents_plain name.data h
  have hfs : firstSeg name = first := by
    unfold firstSeg
    rw [hsplit]
  obtain ⟨L, hL⟩ : ∃ L, (splitSegs name.data).getLast? = some L := by
    rw [hsplit]
    exact ⟨(first :: rest).getLast (by simp), List.getLast?_eq_getLast _ _⟩
  have hlseg : lastSeg name = L := by
    unfold lastSeg
    rw [hL]
    rfl
  have hfn : fileName name.data = some L := by
    unfold fileName
    rw [hcomps, List.getLast?_map, hL]
    rfl
  have hext : pathExtension name.data = extOf L := by
    unfold pathExtension
    rw [hfn]
    rfl
  have hsw : ∀ pat : List Char, pathComponents pat = [PathComp.normal pat] →
      pathStartsWith name.data pat = decide (first = pat) :=
    fun pat hp => pathStartsWith_plain name.data pat first rest hsplit hcomps hp
  unfold should_remove_file claimedRemoveAmended
  rw [hfs, hext, hlseg, extOf_eq_afterLastDot]
  simp only [REMOVABLE_PATTERNS, List.any_cons, List.any_nil,
    hsw "images".data (by decide), hsw "sound".data (by decide),
    hsw "video".data (by decide), Bool.or_false]
  cases hald : afterLastDot L with
  | none => rfl
  | some e =>
    by_cases hcnd : e.length + 1 < L.length
    · simp [hcnd]
    · simp [hcnd]

/-- C2 witness: the amended equivalence at the plain-segment name
`sound/track.mp3`, where both sides are true. -/
theorem claim2_witness :
    (∀ seg ∈ splitSegs "sound/track.mp3".data, segPlain seg = true) ∧
      should_remove_file "sound/track.mp3" =
        claimedRemoveAmended "sound/track.mp3" :=
  ⟨by decide, claim2_predicate_matches_amended_spec "sound/track.mp3"
    (by decide)⟩

/-- C9: the removal predicate decides the spec's four literal cases:
`images/hud/icon.iwi` and `weapon.iwi` are removed, while
`scripts/images_backup.txt` and `readme.txt` are kept. -/
theorem claim9_predicate_literal_cases :
    should_remove_file "images/hud/icon.iwi" = true ∧
      should_remove_file "scripts/images_backup.txt" = false ∧
      should_remove_file "weapon.iwi" = true ∧
      should_remove_file "readme.txt" = false := by
  refine ⟨?_, ?_, ?_, ?_⟩ <;> decide

/-- C10: deleting a work directory's `video` subdirectory adds its total
file-byte size to `bytes_removed` and exactly `0` to `files_removed`,
whatever the directory contains, so the aggregate file count never counts
files removed this way. -/
theorem claim10_video_dir_adds_zero_to_file_count (stats : ProcessingStats)
    (fileSizes : List Nat) :
    process_directory_video_step stats (some fileSizes) =
      ⟨stats.files_removed, stats.bytes_removed + get_dir_size fileSizes⟩ := by
  simp [process_directory_video_step, process_video_directory,
    ProcessingStats.add, get_dir_size]

end ShrinkIw4x
